import Mathlib

/-!
Verification of the sentiment-analysis notebook's bucketed-batch
pipeline: a shallow embedding of the computational core of the notebook
`sentiment_analysis-checkpoint.ipynb`: the masked mean-pooling layer,
the preprocessing of (text, rating) pairs, the padding batchify function,
the evaluation pass's prediction rule, and the single-sentence inference
call.  Real-valued tensors are modelled over `ℚ`; a (T, N, C)-shaped
tensor is a function `ℕ → ℕ → ℕ → ℚ` read as position → batch column →
hidden channel.
-/

namespace SentimentNotebook

/-- Embedding of `F.SequenceMask(data, sequence_length=valid_length,
use_sequence_length=True)`: positions `t ≥ valid_length j` of column `j`
are replaced by the default mask value 0. -/
def SequenceMask (data : ℕ → ℕ → ℕ → ℚ) (validLength : ℕ → ℕ) :
    ℕ → ℕ → ℕ → ℚ :=
  fun t j k => if t < validLength j then data t j k else 0

/-- Embedding of `MeanPoolingLayer.hybrid_forward`: mask the encoded
features, sum over the time axis (axis 0, of extent `T`), and divide by
the broadcast valid length. -/
def meanPooling (T : ℕ) (data : ℕ → ℕ → ℕ → ℚ) (validLength : ℕ → ℕ) :
    ℕ → ℕ → ℚ :=
  fun j k =>
    (∑ t in Finset.range T, SequenceMask data validLength t j k) /
      (validLength j : ℚ)

theorem sum_mask_eq (T : ℕ) (F : ℕ → ℕ → ℕ → ℚ) (vl : ℕ → ℕ) (j k : ℕ)
    (h2 : vl j ≤ T) :
    (∑ t in Finset.range T, SequenceMask F vl t j k) =
      ∑ t in Finset.range (vl j), F t j k := by
  unfold SequenceMask
  rw [← Finset.sum_filter]
  congr 1
  ext t
  simp only [Finset.mem_filter, Finset.mem_range]
  omega

/-- C2: mean pooling with any pad contamination `G` agreeing with `F` on
the valid positions of column `j` returns the masked mean of `F`'s valid
positions: `(1/vl[j]) * sum over t in [0, vl[j]) of F[t, j, :]`; the
positions `t ≥ vl[j]` never influence the pooled output. -/
theorem meanPooling_masked_mean (T : ℕ) (F G : ℕ → ℕ → ℕ → ℚ)
    (vl : ℕ → ℕ) (j k : ℕ)
    (hFG : ∀ t, t < vl j → G t j k = F t j k)
    (_h1 : 1 ≤ vl j) (h2 : vl j ≤ T) :
    meanPooling T G vl j k =
      (∑ t in Finset.range (vl j), F t j k) / (vl j : ℚ) := by
  unfold meanPooling
  rw [sum_mask_eq T G vl j k h2]
  congr 1
  exact Finset.sum_congr rfl fun t ht => hFG t (Finset.mem_range.mp ht)

/-- Witness for C2: a 3-position all-ones tensor with valid length 2 and
nonzero pad contamination 99 at position 2 pools to (1 + 1) / 2. -/
theorem meanPooling_masked_mean_witness :
    (∀ t : ℕ, t < 2 → (if t < 2 then (1 : ℚ) else 99) = 1) ∧
    (1 ≤ 2) ∧ (2 ≤ 3) ∧
    meanPooling 3 (fun t _ _ => if t < 2 then (1 : ℚ) else 99)
      (fun _ => 2) 0 0 =
      (∑ _t in Finset.range 2, (1 : ℚ)) / ((2 : ℕ) : ℚ) :=
  ⟨fun _ ht => by simp [ht], by decide, by decide,
    meanPooling_masked_mean 3 (fun _ _ _ => (1 : ℚ))
      (fun t _ _ => if t < 2 then (1 : ℚ) else 99) (fun _ => 2) 0 0
      (fun _ ht => by simp [ht]) (by decide) (by decide)⟩

/-- C6: mean pooling is linear in the valid region: if `G` equals `c • F`
on every valid position of column `j`, the pooled output of `G` is `c`
times the pooled output of `F`. -/
theorem meanPooling_linear (T : ℕ) (c : ℚ) (F G : ℕ → ℕ → ℕ → ℚ)
    (vl : ℕ → ℕ) (j k : ℕ)
    (hG : ∀ t, t < vl j → G t j k = c * F t j k)
    (_h1 : 1 ≤ vl j) :
    meanPooling T G vl j k = c * meanPooling T F vl j k := by
  unfold meanPooling
  have hsum : (∑ t in Finset.range T, SequenceMask G vl t j k) =
      c * ∑ t in Finset.range T, SequenceMask F vl t j k := by
    rw [Finset.mul_sum]
    refine Finset.sum_congr rfl fun t _ => ?_
    unfold SequenceMask
    by_cases h : t < vl j
    · simp [h, hG t h]
    · simp [h]
  rw [hsum, mul_div_assoc]

/-- Witness for C6: scaling a 2-position all-ones valid region by 3
(with arbitrary pad value 99) scales the pooled output by 3. -/
theorem meanPooling_linear_witness :
    (∀ t : ℕ, t < 2 → (if t < 2 then (3 : ℚ) else 99) = 3 * 1) ∧
    (1 ≤ 2) ∧
    meanPooling 3 (fun t _ _ => if t < 2 then (3 : ℚ) else 99)
      (fun _ => 2) 0 0 =
      3 * meanPooling 3 (fun _ _ _ => (1 : ℚ)) (fun _ => 2) 0 0 :=
  ⟨fun _ ht => by simp [ht], by decide,
    meanPooling_linear 3 3 (fun _ _ _ => (1 : ℚ))
      (fun t _ _ => if t < 2 then (3 : ℚ) else 99) (fun _ => 2) 0 0
      (fun _ ht => by simp [ht]) (by decide)⟩

/-- Embedding of `length_clip = nlp.data.ClipSequence(500)`: clip a token
list to at most `maxLen` entries. -/
def lengthClip (maxLen : ℕ) (tokens : List String) : List String :=
  tokens.take maxLen

/-- Embedding of `preprocess`: `label = int(label > 5)` and
`data = vocab[length_clip(tokenizer(data))]`.  The external tokenizer has
already been applied (the first component is its output) and the
vocabulary lookup is the external function `vocab`. -/
def preprocess (vocab : String → ℕ) (x : List String × ℤ) : List ℕ × ℕ :=
  ((lengthClip 500 x.1).map vocab, if x.2 > 5 then 1 else 0)

/-- Embedding of `get_length`: `float(len(x[0]))`. -/
def get_length (x : List ℕ × ℕ) : ℚ :=
  (x.1.length : ℚ)

/-- Embedding of `preprocess_dataset`: `pool.map(preprocess, dataset)`
followed by `pool.map(get_length, dataset)` over the already-preprocessed
dataset; `mp.Pool().map` preserves input order, so both are order-keeping
list maps. -/
def preprocess_dataset (vocab : String → ℕ)
    (dataset : List (List String × ℤ)) : List (List ℕ × ℕ) × List ℚ :=
  let ds := dataset.map (preprocess vocab)
  (ds, ds.map get_length)

/-- C5: the binary label assigned during preprocessing is 1 iff the
integer rating is strictly greater than 5, and 0 otherwise. -/
theorem preprocess_label_iff (vocab : String → ℕ) (tokens : List String)
    (rating : ℤ) :
    ((preprocess vocab (tokens, rating)).2 = 1 ↔ 5 < rating) ∧
    ((preprocess vocab (tokens, rating)).2 = 0 ↔ ¬ 5 < rating) := by
  unfold preprocess
  by_cases h : 5 < rating <;> simp [h]

/-- C10: the lengths dataset is index-aligned with the token dataset:
the two have equal length and, for every index `i`, the i-th entry of
the lengths list is the token count of the i-th preprocessed example,
cast to the numeric type. -/
theorem lengths_index_aligned (vocab : String → ℕ)
    (dataset : List (List String × ℤ)) :
    (preprocess_dataset vocab dataset).2.length =
      (preprocess_dataset vocab dataset).1.length ∧
    ∀ i : ℕ, (preprocess_dataset vocab dataset).2.get? i =
      ((preprocess_dataset vocab dataset).1.get? i).map
        (fun e => (e.1.length : ℚ)) := by
  unfold preprocess_dataset
  refine ⟨by simp, fun i => ?_⟩
  simp only [List.get?_eq_getElem?, List.getElem?_map]
  cases dataset[i]? <;> simp [get_length]

/-- C3 counterexample: the pipeline contains no zero-length rejection or
filter.  On the concrete dataset holding one example with an empty token
sequence (rating 7), preprocessing keeps the example (as the empty id
list with label 1), the lengths list handed to the sampler/batcher is
[0], and mean pooling at valid length 0 silently yields the division
convention's junk value 0 rather than raising a data error — refuting
the claim at this input. -/
theorem zero_length_not_filtered :
    (preprocess_dataset (fun _ => 0) [([], 7)]).1 = [([], 1)] ∧
    (preprocess_dataset (fun _ => 0) [([], 7)]).2 = [0] ∧
    meanPooling 1 (fun _ _ _ => 5) (fun _ => 0) 0 0 = 0 := by
  refine ⟨rfl, ?_, ?_⟩
  · simp [preprocess_dataset, preprocess, get_length, lengthClip]
  · simp [meanPooling, SequenceMask]

/-- C3 amended: preprocessing filters nothing — the output dataset has
one entry per input example; an example whose token sequence is empty is
passed through to batching with recorded length 0; and the pooling step
performs the division at valid length 0 unguarded (a silent junk value
in this total model, not a data error). -/
theorem zero_length_passes_through (vocab : String → ℕ)
    (dataset : List (List String × ℤ)) (i : ℕ)
    (hi : (dataset.get? i).map Prod.fst = some [])
    (T : ℕ) (F : ℕ → ℕ → ℕ → ℚ) (vl : ℕ → ℕ) (j k : ℕ)
    (hvl : vl j = 0) :
    (preprocess_dataset vocab dataset).1.length = dataset.length ∧
    (preprocess_dataset vocab dataset).2.get? i = some 0 ∧
    meanPooling T F vl j k = 0 := by
  refine ⟨by simp [preprocess_dataset], ?_, ?_⟩
  · cases hd : dataset.get? i with
    | none => rw [hd] at hi; simp at hi
    | some p =>
        rw [hd] at hi
        have hp : p.1 = [] := by simpa using hi
        rw [List.get?_eq_getElem?] at hd ⊢
        simp [preprocess_dataset, List.getElem?_map, hd, preprocess,
          get_length, lengthClip, hp]
  · simp [meanPooling, SequenceMask, hvl]

/-- Witness for C3's amended theorem: the one-example dataset with an
empty token sequence and rating 7 passes through with recorded length 0,
and pooling at valid length 0 returns 0. -/
theorem zero_length_passes_through_witness :
    ((([([], 7)] : List (List String × ℤ)).get? 0).map Prod.fst =
      some []) ∧ ((fun _ : ℕ => 0) 0 = 0) ∧
    ((preprocess_dataset (fun _ => 0) [([], 7)]).1.length =
      ([([], 7)] : List (List String × ℤ)).length ∧
    (preprocess_dataset (fun _ => 0) [([], 7)]).2.get? 0 = some 0 ∧
    meanPooling 1 (fun _ _ _ => 5) (fun _ : ℕ => 0) 0 0 = 0) :=
  ⟨rfl, rfl,
    zero_length_passes_through (fun _ => 0) [([], 7)] 0 rfl 1
      (fun _ _ _ => 5) (fun _ => 0) 0 0 rfl⟩

/-- Maximum of a list of naturals (0 on the empty list), the `max` the
padding code takes over the batch's sequence lengths. -/
def listMax (l : List ℕ) : ℕ :=
  l.foldr max 0

/-- Pad one sequence to `maxLen` with the pad token id 0. -/
def padSeq (maxLen : ℕ) (s : List ℕ) : List ℕ :=
  s ++ List.replicate (maxLen - s.length) 0

/-- Embedding of the `Pad(axis=0, ret_length=True)` half of
`batchify_fn`: pad every sequence in the group to the group's maximum
length and return the padded group together with the pre-pad lengths. -/
def padBatch (seqs : List (List ℕ)) : List (List ℕ) × List ℕ :=
  (seqs.map (padSeq (listMax (seqs.map List.length))),
    seqs.map List.length)

theorem le_listMax {l : List ℕ} {x : ℕ} (hx : x ∈ l) : x ≤ listMax l := by
  induction l with
  | nil => cases hx
  | cons a t ih =>
      rcases List.mem_cons.mp hx with h | h
      · exact h ▸ le_max_left _ _
      · exact le_trans (ih h) (le_max_right _ _)

theorem listMax_mem {l : List ℕ} (h : l ≠ []) : listMax l ∈ l := by
  induction l with
  | nil => exact absurd rfl h
  | cons a t ih =>
      cases t with
      | nil => simp [listMax]
      | cons b t' =>
          have hM : listMax (a :: b :: t') = max a (listMax (b :: t')) :=
            rfl
          rcases max_choice a (listMax (b :: t')) with hm | hm
          · rw [hM, hm]; exact List.mem_cons_self _ _
          · rw [hM, hm]
            exact List.mem_cons.mpr (Or.inr (ih (by simp)))

theorem sum_le_listMax_mul (l : List ℕ) :
    l.sum ≤ listMax l * l.length := by
  induction l with
  | nil => simp [listMax]
  | cons a t ih =>
      have h1 : a ≤ max a (listMax t) := le_max_left _ _
      have h2 : t.sum ≤ max a (listMax t) * t.length :=
        le_trans ih (Nat.mul_le_mul_right _ (le_max_right _ _))
      calc (a :: t).sum = a + t.sum := List.sum_cons
        _ ≤ max a (listMax t) + max a (listMax t) * t.length :=
            add_le_add h1 h2
        _ = max a (listMax t) * (t.length + 1) := by ring
        _ = listMax (a :: t) * (a :: t).length := rfl

theorem sum_eq_listMax_mul_iff (l : List ℕ) :
    l.sum = listMax l * l.length ↔ ∀ a ∈ l, a = listMax l := by
  induction l with
  | nil => simp
  | cons a t ih =>
      have hle : t.sum ≤ listMax t * t.length := sum_le_listMax_mul t
      have hM : listMax (a :: t) = max a (listMax t) := rfl
      constructor
      · intro h
        simp only [List.sum_cons, List.length_cons, hM] at h
        have ha : a ≤ max a (listMax t) := le_max_left _ _
        have ht : t.sum ≤ max a (listMax t) * t.length :=
          le_trans hle (Nat.mul_le_mul_right _ (le_max_right _ _))
        rw [Nat.mul_succ] at h
        have ha' : a = max a (listMax t) := by omega
        have ht' : t.sum = max a (listMax t) * t.length := by omega
        intro b hb
        rcases List.mem_cons.mp hb with hba | hbt
        · exact hba.trans (hM ▸ ha')
        · rcases Nat.eq_zero_or_pos t.length with hn | hn
          · exact absurd hbt (by simp [List.length_eq_zero.mp hn])
          · have hMt : max a (listMax t) ≤ listMax t :=
              Nat.le_of_mul_le_mul_right
                (le_trans (ht'.symm.le.trans hle) le_rfl) hn
            have hMt' : listMax t = max a (listMax t) :=
              le_antisymm (le_max_right _ _) hMt
            have := ih.mp (ht'.trans (by rw [← hMt']))
            exact (this b hbt).trans (hM ▸ hMt'.symm ▸ hMt')
      · intro h
        have ha : a = listMax (a :: t) := h a (List.mem_cons_self a t)
        cases t with
        | nil => simp [listMax]
        | cons b t' =>
            have hMt : listMax (b :: t') = listMax (a :: b :: t') := by
              refine h _ (List.mem_cons.mpr (Or.inr ?_))
              exact listMax_mem (by simp)
            have hts : (b :: t').sum =
                listMax (b :: t') * (b :: t').length := by
              refine (ih.mpr ?_)
              intro c hc
              exact (h c (List.mem_cons.mpr (Or.inr hc))).trans hMt.symm
            have hsum : (a :: b :: t').sum = a + (b :: t').sum :=
              List.sum_cons
            rw [hsum, hts, hMt, ← ha]
            simp only [List.length_cons]
            ring

/-- C8: every padded batch satisfies max_len == max(valid_lengths): each
padded row's length equals the maximum of the recorded pre-pad lengths,
i.e. the padded tensor's time dimension is the largest valid length. -/
theorem padBatch_time_dim (seqs : List (List ℕ)) :
    (padBatch seqs).1.map List.length =
      List.replicate seqs.length (listMax ((padBatch seqs).2)) := by
  unfold padBatch
  rw [List.map_map]
  refine List.eq_replicate_iff.mpr ⟨by simp, ?_⟩
  intro b hb
  rcases List.mem_map.mp hb with ⟨s, hs, rfl⟩
  have hle : s.length ≤ listMax (seqs.map List.length) :=
    le_listMax (List.mem_map.mpr ⟨s, hs, rfl⟩)
  simp only [Function.comp_apply, padSeq, List.length_append,
    List.length_replicate]
  omega

/-- C9: for every batch, the sum of the valid lengths is at most
max_len * batch_size (the padded element count), with equality iff every
example in the batch has the same length. -/
theorem padBatch_sum_le_iff (seqs : List (List ℕ)) :
    (padBatch seqs).2.sum ≤ listMax ((padBatch seqs).2) * seqs.length ∧
    ((padBatch seqs).2.sum = listMax ((padBatch seqs).2) * seqs.length ↔
      ∀ s ∈ seqs, ∀ u ∈ seqs, s.length = u.length) := by
  have hlen : (padBatch seqs).2.length = seqs.length := by
    simp [padBatch]
  constructor
  · simpa [hlen] using sum_le_listMax_mul (padBatch seqs).2
  · rw [← hlen, sum_eq_listMax_mul_iff]
    constructor
    · intro h s hs u hu
      have h1 := h s.length (List.mem_map.mpr ⟨s, hs, rfl⟩)
      have h2 := h u.length (List.mem_map.mpr ⟨u, hu, rfl⟩)
      exact h1.trans h2.symm
    · intro h a ha
      rcases List.mem_map.mp ha with ⟨s, hs, rfl⟩
      have hne : (padBatch seqs).2 ≠ [] := by
        simp only [padBatch]
        exact fun hc => by simp [List.map_eq_nil_iff.mp hc] at hs
      rcases List.mem_map.mp (listMax_mem hne) with ⟨u, hu, hMu⟩
      exact (h s hs u hu).trans hMu

/-- Embedding of the prediction rule in `evaluate`:
`pred = (output > 0.5).reshape(-1)` — the threshold 0.5 is applied to the
network's raw logit output (the `Dense(1)` head produces logits; the loss
is `SigmoidBCELoss`, which applies the sigmoid itself). -/
def evalPred (logit : ℚ) : Bool :=
  decide ((1 : ℚ) / 2 < logit)

/-- Embedding of `evaluate`'s accuracy:
`total_correct_num += (pred == label).sum()` accumulated over a list of
per-example (logit, 0/1 label) results, divided by the sample count. -/
def evalAccuracy (results : List (ℚ × ℕ)) : ℚ :=
  ((results.filter
      (fun x => (if evalPred x.1 then 1 else 0) == x.2)).length : ℚ) /
    (results.length : ℚ)

/-- Modelled from the spec: `prediction = logit > 0`, equivalently
`sigmoid(logit) > 0.5` — the rule the notebook's own inference cells
implement by applying `.sigmoid()` to the logit and comparing with 0.5. -/
def specPrediction (logit : ℚ) : Bool :=
  decide (0 < logit)

/-- C1: the claim fails on `evaluate`, whose prediction thresholds the
raw logit at 0.5 instead of 0.  At logit 1/4 (predicted probability
sigmoid(1/4) ≈ 0.562 > 0.5) the claim demands a positive prediction, but
the code predicts negative, and the accuracy on the single example
(logit 1/4, label 1) is 0 where the claim's rule gives 1; at the
boundary logit 0 both rules agree on negative. -/
theorem evalPred_diverges_from_spec :
    evalPred (1 / 4) = false ∧ specPrediction (1 / 4) = true ∧
    evalAccuracy [(1 / 4, 1)] = 0 ∧
    evalPred 0 = false ∧ specPrediction 0 = false := by
  refine ⟨?_, ?_, ?_, ?_, ?_⟩
  · norm_num [evalPred]
  · norm_num [specPrediction]
  · have hp : evalPred ((4 : ℚ)⁻¹) = false := by norm_num [evalPred]
    simp [evalAccuracy, List.filter, hp]
  · norm_num [evalPred]
  · norm_num [specPrediction]

/-- Embedding of the valid length handed to the network by the
single-sentence inference cells: `mx.nd.array([4], ctx=context)` — the
constant 4, whatever token id list was produced from the input text. -/
def inferenceValidLength (_ids : List ℕ) : ℕ :=
  4

/-- C4: the claim fails on the inference cells — the valid length of the
length-1 batch is the hard-coded constant 4, not the token count.  On a
16-token input the network pools only the first 4 positions: with the
position-encoding features F[t] = t the pooled value is
(0+1+2+3)/4 = 3/2, while pooling with the true token count 16 gives
(0+...+15)/16 = 15/2. -/
theorem inference_valid_length_constant :
    inferenceValidLength (List.range 16) = 4 ∧
    (List.range 16).length = 16 ∧
    meanPooling 16 (fun t _ _ => (t : ℚ))
      (fun _ => inferenceValidLength (List.range 16)) 0 0 = 3 / 2 ∧
    meanPooling 16 (fun t _ _ => (t : ℚ)) (fun _ => 16) 0 0 = 15 / 2 := by
  refine ⟨rfl, rfl, ?_, ?_⟩
  · show (∑ t in Finset.range 16,
      SequenceMask (fun t _ _ => (t : ℚ)) (fun _ => 4) t 0 0) /
        ((4 : ℕ) : ℚ) = 3 / 2
    rw [sum_mask_eq 16 _ _ 0 0 (by norm_num)]
    norm_num [Finset.sum_range_succ]
  · show (∑ t in Finset.range 16,
      SequenceMask (fun t _ _ => (t : ℚ)) (fun _ => 16) t 0 0) /
        ((16 : ℕ) : ℚ) = 15 / 2
    rw [sum_mask_eq 16 _ _ 0 0 (by norm_num)]
    norm_num [Finset.sum_range_succ]

/-- Minimum of a list of naturals, with the list's maximum as the value
on the empty list (so an empty length collection yields an empty key
range). -/
def listMin (l : List ℕ) : ℕ :=
  l.foldr min (listMax l)

/-- Fuel-bounded chunking of a list into consecutive groups of `n`. -/
def chunkFuel {α : Type} (n : ℕ) : ℕ → List α → List (List α)
  | 0, _ => []
  | _, [] => []
  | fuel + 1, a :: l =>
      (a :: l).take n :: chunkFuel n fuel ((a :: l).drop n)

/-- Cut a list into consecutive chunks of `n` (the last may be short). -/
def chunkList {α : Type} (n : ℕ) (l : List α) : List (List α) :=
  chunkFuel n l.length l

/-- Modelled from the spec: gluonnlp's `FixedBucketSampler` bucket-key
generation is library code absent from the repository (only its call
site appears in src/); spec section 4.1 step 1 allows any deterministic
monotone scheme covering [min length, max length].  Here: `numBuckets`
ascending equal-width thresholds from the minimum to the maximum length,
deduplicated. -/
def bucketKeys (lengths : List ℕ) (numBuckets : ℕ) : List ℕ :=
  let mn := listMin lengths
  let mx := listMax lengths
  ((List.range numBuckets).map
    (fun i => mn + ((mx - mn) * (i + 1) + numBuckets - 1) / numBuckets)).dedup

/-- Modelled from the spec (section 4.1 step 2): assign an example to
the smallest bucket whose key is at least its length; examples exceeding
the largest key are clipped into the last bucket. -/
def bucketIndex (keys : List ℕ) (len : ℕ) : ℕ :=
  match keys.findIdx? (fun k => decide (len ≤ k)) with
  | some i => i
  | none => keys.length - 1

/-- Modelled from the spec (section 4.1 step 3): a monotonically
decreasing, `r`-controlled scaling of the batch size for longer buckets,
bounded below by 1 (the spec permits any such monotone formula in place
of the library's power law). -/
def bucketBatchSize (batchSize maxKey key : ℕ) (r : ℚ) : ℕ :=
  max 1 (Int.toNat
    ⌊(batchSize : ℚ) * ((1 - r) + r * (maxKey : ℚ) / (key : ℚ))⌋)

/-- Modelled from the spec: `FixedBucketSampler` is gluonnlp library
code absent from the repository; spec section 4.1 describes it — derive
deterministic bucket keys, assign each example index to its bucket, cut
each bucket's members (in input order) into chunks of the bucket's batch
size, and apply the two shuffle passes (within buckets, then over the
batch list) only when `shuffle` is true.  The library's RNG is
represented by the caller-supplied permutation functions. -/
def fixedBucketSampler (lengths : List ℕ) (batchSize numBuckets : ℕ)
    (r : ℚ) (shuffle : Bool) (shuffleMembers : List ℕ → List ℕ)
    (shuffleBatches : List (List ℕ) → List (List ℕ)) :
    List (List ℕ) :=
  let keys := bucketKeys lengths numBuckets
  let maxKey := listMax keys
  let batches :=
    ((List.range keys.length).map (fun b =>
      let members := (List.range lengths.length).filter
        (fun i => bucketIndex keys (lengths.getD i 0) == b)
      let members' := if shuffle then shuffleMembers members else members
      chunkList (bucketBatchSize batchSize maxKey (keys.getD b 0) r)
        members')).flatten
  if shuffle then shuffleBatches batches else batches

/-- C7: with shuffle disabled the sampler is deterministic — two runs on
the same lengths, even with different RNG permutation oracles, produce
the same list of index batches, hence identical batch membership. -/
theorem fixedBucketSampler_deterministic (lengths : List ℕ)
    (batchSize numBuckets : ℕ) (r : ℚ)
    (f₁ f₂ : List ℕ → List ℕ)
    (g₁ g₂ : List (List ℕ) → List (List ℕ)) :
    fixedBucketSampler lengths batchSize numBuckets r false f₁ g₁ =
      fixedBucketSampler lengths batchSize numBuckets r false f₂ g₂ := by
  simp only [fixedBucketSampler, Bool.false_eq_true, if_false]

end SentimentNotebook
